import Mathlib

/-!
Verification of the JSON localisation-patching scripts.

The repository's scripts operate on JSON translation bundles whose values are
either text leaves or nested objects.  We embed this data model as `Tree`
(leaf string or node holding an ordered association list with string keys,
mirroring a Python `dict`'s insertion order), and embed:

* `deep_update` from `fix_ka_translation.py` (lines 132-139), which recurses
  only into non-empty dict override values (`isinstance(value, dict) and value`);
* `deep_update` from `rehydrate_ka.py` (lines 221-227), which recurses into
  every dict override value (`isinstance(v, dict)`), called `deep_update_r` here;
* the merge loop of `update_json_file` from `update_translations.py`
  (lines 4-21), called `update_merge` here;
* the lenient loading chain of `rehydrate_ka.py` (lines 96-138): brace-count
  balancing, strict parse, trailing-comma stripping, strict parse again,
  and finally the caller-supplied fallback, called `load_lenient` here.

Fallible Python code (statements that can raise `TypeError` or
`AttributeError`, such as `source[key] = v` or a `source.get` call on a
string) is embedded with `Option`: a `none` result means the Python code
raises on that input.
-/

namespace LocaleMerge

/-- A JSON-like tree: a text leaf or an internal node holding an ordered
mapping from string keys to subtrees, mirroring a Python `dict`. -/
inductive Tree where
  | leaf : String → Tree
  | node : List (String × Tree) → Tree
deriving Repr

mutual

/-- Decidable equality of trees, by structural comparison. -/
def decEqTree : (a b : Tree) → Decidable (a = b)
  | .leaf a, .leaf b =>
    match String.decEq a b with
    | isTrue h => isTrue (by rw [h])
    | isFalse h => isFalse (fun hh => by cases hh; exact h rfl)
  | .leaf _, .node _ => isFalse (by intro h; cases h)
  | .node _, .leaf _ => isFalse (by intro h; cases h)
  | .node as, .node bs =>
    match decEqKvs as bs with
    | isTrue h => isTrue (by rw [h])
    | isFalse h => isFalse (fun hh => by cases hh; exact h rfl)

/-- Decidable equality of key-value lists, by structural comparison. -/
def decEqKvs : (a b : List (String × Tree)) → Decidable (a = b)
  | [], [] => isTrue rfl
  | [], _ :: _ => isFalse (by intro h; cases h)
  | _ :: _, [] => isFalse (by intro h; cases h)
  | (k1, v1) :: r1, (k2, v2) :: r2 =>
    match String.decEq k1 k2 with
    | isFalse h => isFalse (fun hh => by cases hh; exact h rfl)
    | isTrue h1 =>
      match decEqTree v1 v2 with
      | isFalse h => isFalse (fun hh => by cases hh; exact h rfl)
      | isTrue h2 =>
        match decEqKvs r1 r2 with
        | isFalse h => isFalse (fun hh => by cases hh; exact h rfl)
        | isTrue h3 => isTrue (by rw [h1, h2, h3])

end

instance : DecidableEq Tree := decEqTree

/-- Dictionary lookup: the value at the first occurrence of a key. -/
def lookup : List (String × Tree) → String → Option Tree
  | [], _ => none
  | (k, v) :: rest, key => if k = key then some v else lookup rest key

/-- Dictionary assignment `d[key] = val`: replace the value at an existing
key in place (keeping its position, as Python dicts do) or append a new
entry at the end. -/
def setKey : List (String × Tree) → String → Tree → List (String × Tree)
  | [], key, val => [(key, val)]
  | (k, v) :: rest, key, val =>
    if k = key then (k, val) :: rest else (k, v) :: setKey rest key val

/-- The keys of an association list, in order. -/
def keys (l : List (String × Tree)) : List String := l.map Prod.fst

/-- A key does not occur in an association list. -/
def keyNotIn (key : String) : List (String × Tree) → Bool
  | [] => true
  | (k, _) :: rest => if k = key then false else keyNotIn key rest

/-- All keys of an association list are pairwise distinct, as holds for any
association list obtained from a Python dict. -/
def nodupKeys : List (String × Tree) → Bool
  | [] => true
  | (k, _) :: rest => keyNotIn k rest && nodupKeys rest

mutual

/-- Well-formedness of a tree: every node's keys are pairwise distinct,
recursively.  Every tree built from a Python dict satisfies this. -/
def wfT : Tree → Bool
  | .leaf _ => true
  | .node kvs => nodupKeys kvs && wfChildren kvs

/-- Well-formedness of all values of an association list. -/
def wfChildren : List (String × Tree) → Bool
  | [] => true
  | (_, v) :: rest => wfT v && wfChildren rest

end

/-- Loop body of `deep_update` from `fix_ka_translation.py`, iterating over
the items of the overrides dict with the current (mutated) source as
accumulator.  A non-empty dict override value recurses
(`isinstance(value, dict) and value`); any other value is assigned
directly.  When the source is a string, both branches raise
(`source.get` raises `AttributeError`, `source[key] = v` raises
`TypeError`), embedded as `none`. -/
def go : Tree → List (String × Tree) → Option Tree
  | src, [] => some src
  | .leaf _, _ :: _ => none
  | .node svs, (k, .leaf s) :: rest => go (.node (setKey svs k (.leaf s))) rest
  | .node svs, (k, .node []) :: rest => go (.node (setKey svs k (.node []))) rest
  | .node svs, (k, .node (v1 :: vs)) :: rest =>
    match go ((lookup svs k).getD (.node [])) (v1 :: vs) with
    | none => none
    | some w => go (.node (setKey svs k w)) rest
termination_by _ items => sizeOf items
decreasing_by all_goals simp_wf <;> omega

/-- The `deep_update` of `fix_ka_translation.py` lines 132-139.  Iterating
`overrides.items()` over a non-dict overrides raises, hence `none`. -/
def deep_update (source overrides : Tree) : Option Tree :=
  match overrides with
  | .leaf _ => none
  | .node os => go source os

/-- Loop body of `deep_update` from `rehydrate_ka.py`: every dict override
value recurses, including the empty dict (`isinstance(v, dict)` with no
non-emptiness test). -/
def goR : Tree → List (String × Tree) → Option Tree
  | src, [] => some src
  | .leaf _, _ :: _ => none
  | .node svs, (k, .leaf s) :: rest => goR (.node (setKey svs k (.leaf s))) rest
  | .node svs, (k, .node vs) :: rest =>
    match goR ((lookup svs k).getD (.node [])) vs with
    | none => none
    | some w => goR (.node (setKey svs k w)) rest
termination_by _ items => sizeOf items
decreasing_by all_goals simp_wf <;> omega

/-- The `deep_update` of `rehydrate_ka.py` lines 221-227. -/
def deep_update_r (d u : Tree) : Option Tree :=
  match u with
  | .leaf _ => none
  | .node us => goR d us

/-- Compatibility of a source node's entries with an overrides item list:
no key reached by the recursion of `deep_update` maps to a leaf in the
source while mapping to a non-empty node in the overrides.  This is the
condition under which `fix_ka_translation.py`'s `deep_update` raises no
exception. -/
def compatL : List (String × Tree) → List (String × Tree) → Bool
  | _, [] => true
  | svs, (k, .node (v1 :: vs)) :: rest =>
    (match lookup svs k with
     | some (.leaf _) => false
     | some (.node ws) => compatL ws (v1 :: vs)
     | none => compatL [] (v1 :: vs)) && compatL svs rest
  | svs, (_, _) :: rest => compatL svs rest
termination_by _ items => sizeOf items
decreasing_by all_goals simp_wf <;> omega

mutual

/-- Key preservation for a merge result, entry list form: every key of the
base list is still present in the result list, bound to its old value when
the overrides do not mention it, and recursively preserved at keys where
the merge recursed (base value a node meeting a non-empty overrides
node). -/
def presL : List (String × Tree) → List (String × Tree) → List (String × Tree) → Bool
  | [], _, _ => true
  | (k, bv) :: brest, os, rs => presEntry k bv os rs && presL brest os rs

/-- Preservation of a single base entry in a merge result. -/
def presEntry (k : String) (bv : Tree) (os rs : List (String × Tree)) : Bool :=
  match lookup rs k with
  | none => false
  | some rv =>
    match lookup os k with
    | none => decide (rv = bv)
    | some ov =>
      match bv with
      | .leaf _ => true
      | .node bvs =>
        match ov with
        | .leaf _ => true
        | .node [] => true
        | .node (o1 :: ovs) =>
          match rv with
          | .leaf _ => false
          | .node rvs => presL bvs (o1 :: ovs) rvs

end

/-- Key preservation for a merge result, tree form. -/
def preservedB : Tree → Tree → Tree → Bool
  | .node bs, .node os, .node rs => presL bs os rs
  | _, _, _ => true

/-- Repeated dictionary assignment `d[k] = v` for each item in order, as
performed by the inner loop of `update_json_file` in
`update_translations.py`. -/
def setAll (d : List (String × Tree)) : List (String × Tree) → List (String × Tree)
  | [] => d
  | (k, v) :: rest => setAll (setKey d k v) rest

/-- Merge loop of `update_json_file` from `update_translations.py` lines
9-17, iterating over the items of `new_data` with the current `data` dict
as accumulator.  A dict value under a key already present whose current
value is also a dict has its sub-items assigned one level deep; a dict
value over a present non-dict value raises `TypeError` on the first
sub-item (embedded as `none`) and does nothing when it has no sub-items;
every other value is assigned directly. -/
def umGo : List (String × Tree) → List (String × Tree) → Option (List (String × Tree))
  | acc, [] => some acc
  | acc, (k, v) :: rest =>
    match lookup acc k with
    | none => umGo (setKey acc k v) rest
    | some dv =>
      match v with
      | .leaf _ => umGo (setKey acc k v) rest
      | .node vs =>
        match dv with
        | .node subs => umGo (setKey acc k (.node (setAll subs vs))) rest
        | .leaf _ =>
          match vs with
          | [] => umGo acc rest
          | _ :: _ => none

/-- The merge step of `update_json_file` from `update_translations.py`,
restricted to dict-shaped inputs (the JSON documents the script reads are
objects). -/
def update_merge (data newData : Tree) : Option Tree :=
  match data, newData with
  | .node ds, .node ns => (umGo ds ns).map .node
  | _, _ => none

/-- The opening object brace character. -/
def obrace : Char := '\x7b'

/-- The closing object brace character. -/
def cbrace : Char := '\x7d'

/-- JSON whitespace accepted between tokens by the strict parser. -/
def isWs (c : Char) : Bool := c = ' ' || c = '\t' || c = '\n' || c = '\r'

/-- Drop leading JSON whitespace. -/
def skipWs (cs : List Char) : List Char := cs.dropWhile isWs

/-- Value of a hexadecimal digit. -/
def hexVal : Char → Option Nat
  | c =>
    if '0' ≤ c ∧ c ≤ '9' then some (c.toNat - '0'.toNat)
    else if 'a' ≤ c ∧ c ≤ 'f' then some (c.toNat - 'a'.toNat + 10)
    else if 'A' ≤ c ∧ c ≤ 'F' then some (c.toNat - 'A'.toNat + 10)
    else none

/-- Strict parse of the body of a JSON string literal after its opening
quote, mirroring `json.loads`: backslash escapes are decoded, unescaped
control characters are rejected, and the closing quote ends the literal.
Unicode escapes are decoded for code points below the surrogate range;
surrogates are not modelled (no input in this development contains them).
Fuel bounds the recursion and exceeds the input length at every call
site, so it never runs out. -/
def parseStrBody : Nat → List Char → List Char → Option (String × List Char)
  | 0, _, _ => none
  | fuel + 1, cs, acc =>
    match cs with
    | [] => none
    | c :: rest =>
      if c = '"' then some (String.mk acc.reverse, rest)
      else if c = '\\' then
        match rest with
        | [] => none
        | e :: rest2 =>
          if e = '"' then parseStrBody fuel rest2 ('"' :: acc)
          else if e = '\\' then parseStrBody fuel rest2 ('\\' :: acc)
          else if e = '/' then parseStrBody fuel rest2 ('/' :: acc)
          else if e = 'b' then parseStrBody fuel rest2 ('\x08' :: acc)
          else if e = 'f' then parseStrBody fuel rest2 ('\x0c' :: acc)
          else if e = 'n' then parseStrBody fuel rest2 ('\n' :: acc)
          else if e = 'r' then parseStrBody fuel rest2 ('\r' :: acc)
          else if e = 't' then parseStrBody fuel rest2 ('\t' :: acc)
          else if e = 'u' then
            match rest2 with
            | h1 :: h2 :: h3 :: h4 :: rest3 =>
              match hexVal h1, hexVal h2, hexVal h3, hexVal h4 with
              | some a, some b, some c3, some d =>
                let n := ((a * 16 + b) * 16 + c3) * 16 + d
                if n < 0xd800 then parseStrBody fuel rest3 (Char.ofNat n :: acc)
                else none
              | _, _, _, _ => none
            | _ => none
          else none
      else if c.toNat < 0x20 then none
      else parseStrBody fuel rest (c :: acc)

mutual

/-- Strict parse of a single JSON value from the front of the input,
restricted to the Tree subset the scripts use: string literals and
objects.  Returns the value and the unconsumed remainder.  Fuel bounds
the recursion depth; it is decremented only after consuming at least one
character, so a fuel exceeding the input length never runs out. -/
def parseValue : Nat → List Char → Option (Tree × List Char)
  | 0, _ => none
  | fuel + 1, cs =>
    match skipWs cs with
    | [] => none
    | c :: rest =>
      if c = obrace then
        match skipWs rest with
        | c2 :: rest2 =>
          if c2 = cbrace then some (.node [], rest2)
          else parseMembers fuel (c2 :: rest2) []
        | [] => none
      else if c = '"' then
        match parseStrBody (rest.length + 1) rest [] with
        | some (s, rest2) => some (.leaf s, rest2)
        | none => none
      else none

/-- Parse the members of a non-empty object after its opening brace,
accumulating key-value pairs with dict assignment (a later duplicate key
overwrites an earlier one, as `json.loads` building a Python dict
does). -/
def parseMembers : Nat → List Char → List (String × Tree) → Option (Tree × List Char)
  | 0, _, _ => none
  | fuel + 1, cs, acc =>
    match skipWs cs with
    | [] => none
    | c :: rest =>
      if c = '"' then
        match parseStrBody (rest.length + 1) rest [] with
        | some (key, rest2) =>
          match skipWs rest2 with
          | c2 :: rest3 =>
            if c2 = ':' then
              match parseValue fuel rest3 with
              | some (v, rest4) =>
                match skipWs rest4 with
                | c3 :: rest5 =>
                  if c3 = ',' then parseMembers fuel rest5 (setKey acc key v)
                  else if c3 = cbrace then some (.node (setKey acc key v), rest5)
                  else none
                | [] => none
              | none => none
            else none
          | [] => none
        | none => none
      else none

end

/-- Strict parse of a whole input, as `json.loads` does: one value followed
by nothing but whitespace. -/
def jsonParseL (cs : List Char) : Option Tree :=
  match parseValue (cs.length + 1) cs with
  | some (t, rest) => if skipWs rest = [] then some t else none
  | none => none

/-- Strict parse of a string, restricted to the Tree subset. -/
def jsonParse (s : String) : Option Tree := jsonParseL s.toList

/-- Whitespace matched by the `\s` class of Python regular expressions over
ASCII text. -/
def isPySpace (c : Char) : Bool :=
  c = ' ' || c = '\t' || c = '\n' || c = '\r' || c = '\x0b' || c = '\x0c'

/-- Brace balancing of `rehydrate_ka.py` lines 96-107: count opening and
closing braces; append the deficit of closers, or truncate the surplus of
closers from the end (`ka_content[:diff]` with a negative `diff`). -/
def braceBalance (cs : List Char) : List Char :=
  let opens := cs.count obrace
  let closes := cs.count cbrace
  if opens > closes then cs ++ List.replicate (opens - closes) cbrace
  else if opens < closes then cs.take (cs.length - (closes - opens))
  else cs

/-- Single left-to-right pass removing every comma that is followed by
optional whitespace and the given closing character, as
`re.sub` with pattern comma-then-lookahead does on lines 118-119 of
`rehydrate_ka.py`. -/
def stripBefore (close : Char) : List Char → List Char
  | [] => []
  | c :: rest =>
    if c = ',' ∧ (rest.dropWhile isPySpace).head? = some close
    then stripBefore close rest
    else c :: stripBefore close rest

/-- The text after the brace-balancing step of the loader. -/
def balancedText (raw : String) : List Char := braceBalance raw.toList

/-- The text after the trailing-comma-stripping step of the loader: commas
before a closing brace are removed first, then commas before a closing
bracket, both applied to the brace-balanced text. -/
def strippedText (raw : String) : List Char :=
  stripBefore ']' (stripBefore cbrace (balancedText raw))

/-- The lenient loading chain of `rehydrate_ka.py` lines 96-138: balance
braces, attempt a strict parse, strip trailing commas and attempt a
strict parse again, and finally return the caller-supplied fallback
(`ka_data = en_data`). -/
def load_lenient (raw : String) (fallback : Tree) : Tree :=
  match jsonParseL (balancedText raw) with
  | some t => t
  | none =>
    match jsonParseL (strippedText raw) with
    | some t => t
    | none => fallback

theorem lookup_setKey_self (l : List (String × Tree)) (k : String) (v : Tree) :
    lookup (setKey l k v) k = some v := by
  induction l with
  | nil => simp [setKey, lookup]
  | cons hd t ih =>
    obtain ⟨k0, v0⟩ := hd
    by_cases hk : k0 = k
    · simp [setKey, hk, lookup]
    · simp [setKey, hk, lookup, ih]

theorem lookup_setKey_ne (l : List (String × Tree)) {k k' : String} (v : Tree)
    (h : k ≠ k') : lookup (setKey l k v) k' = lookup l k' := by
  induction l with
  | nil => simp [setKey, lookup, h]
  | cons hd t ih =>
    obtain ⟨k0, v0⟩ := hd
    by_cases hk : k0 = k
    · subst hk
      simp [setKey, lookup, h]
    · simp [setKey, hk, lookup, ih]

theorem setKey_lookup_eq (l : List (String × Tree)) {k : String} {v : Tree}
    (h : lookup l k = some v) : setKey l k v = l := by
  induction l with
  | nil => simp [lookup] at h
  | cons hd t ih =>
    obtain ⟨k0, v0⟩ := hd
    by_cases hk : k0 = k
    · simp [lookup, hk] at h
      simp [setKey, hk, h]
    · simp [lookup, hk] at h
      simp [setKey, hk, ih h]

theorem mem_keys_setKey (l : List (String × Tree)) (k k' : String) (v : Tree) :
    k' ∈ keys (setKey l k v) ↔ k' = k ∨ k' ∈ keys l := by
  induction l with
  | nil => simp [setKey, keys]
  | cons hd t ih =>
    obtain ⟨k0, v0⟩ := hd
    by_cases hk : k0 = k
    · subst hk
      simp [setKey, keys]
      try tauto
    · simp [setKey, hk, keys] at ih ⊢
      tauto

theorem lookup_none_iff (l : List (String × Tree)) (k : String) :
    lookup l k = none ↔ k ∉ keys l := by
  induction l with
  | nil => simp [lookup, keys]
  | cons hd t ih =>
    obtain ⟨k0, v0⟩ := hd
    by_cases hk : k0 = k
    · simp [lookup, hk, keys]
    · simp [lookup, hk, keys, ih]
      tauto

theorem lookup_mem (l : List (String × Tree)) {k : String} {v : Tree}
    (h : lookup l k = some v) : (k, v) ∈ l := by
  induction l with
  | nil => simp [lookup] at h
  | cons hd t ih =>
    obtain ⟨k0, v0⟩ := hd
    by_cases hk : k0 = k
    · simp [lookup, hk] at h
      subst hk
      subst h
      exact List.mem_cons_self _ _
    · simp [lookup, hk] at h
      exact List.mem_cons_of_mem _ (ih h)

theorem lookup_some_mem_keys (l : List (String × Tree)) {k : String} {v : Tree}
    (h : lookup l k = some v) : k ∈ keys l := by
  have := lookup_mem l h
  exact List.mem_map_of_mem Prod.fst this

theorem keyNotIn_iff (k : String) (l : List (String × Tree)) :
    keyNotIn k l = true ↔ k ∉ keys l := by
  induction l with
  | nil => simp [keyNotIn, keys]
  | cons hd t ih =>
    obtain ⟨k0, v0⟩ := hd
    by_cases hk : k0 = k
    · simp [keyNotIn, hk, keys]
    · simp [keyNotIn, hk, keys, ih]
      tauto

theorem nodupKeys_cons {k : String} {v : Tree} {l : List (String × Tree)}
    (h : nodupKeys ((k, v) :: l) = true) : k ∉ keys l ∧ nodupKeys l = true := by
  simp [nodupKeys, Bool.and_eq_true] at h
  exact ⟨(keyNotIn_iff k l).mp h.1, h.2⟩

theorem lookup_of_mem_nodup {l : List (String × Tree)} {k : String} {v : Tree}
    (hnd : nodupKeys l = true) (h : (k, v) ∈ l) : lookup l k = some v := by
  induction l with
  | nil => simp at h
  | cons hd t ih =>
    obtain ⟨k0, v0⟩ := hd
    obtain ⟨hni, hnd'⟩ := nodupKeys_cons hnd
    rcases List.mem_cons.mp h with heq | hmem
    · rw [Prod.mk.injEq] at heq
      obtain ⟨h1, h2⟩ := heq
      subst h1
      subst h2
      simp [lookup]
    · by_cases hk : k0 = k
      · subst hk
        exact absurd (List.mem_map_of_mem Prod.fst hmem) hni
      · simp [lookup, hk]
        exact ih hnd' hmem

theorem wfT_node {kvs : List (String × Tree)} (h : wfT (.node kvs) = true) :
    nodupKeys kvs = true ∧ wfChildren kvs = true := by
  simp [wfT, Bool.and_eq_true] at h
  exact h

theorem wfChildren_cons {k : String} {v : Tree} {l : List (String × Tree)}
    (h : wfChildren ((k, v) :: l) = true) : wfT v = true ∧ wfChildren l = true := by
  simp [wfChildren, Bool.and_eq_true] at h
  exact h

theorem wfChildren_mem {l : List (String × Tree)} {k : String} {v : Tree}
    (hwf : wfChildren l = true) (h : (k, v) ∈ l) : wfT v = true := by
  induction l with
  | nil => simp at h
  | cons hd t ih =>
    obtain ⟨k0, v0⟩ := hd
    obtain ⟨h1, h2⟩ := wfChildren_cons hwf
    rcases List.mem_cons.mp h with heq | hmem
    · rw [Prod.mk.injEq] at heq
      rw [heq.2]
      exact h1
    · exact ih h2 hmem

theorem go_node_result : ∀ (os : List (String × Tree)) (svs : List (String × Tree))
    (r : Tree), go (.node svs) os = some r → ∃ rs, r = .node rs := by
  intro os
  induction os with
  | nil =>
    intro svs r h
    simp [go] at h
    exact ⟨svs, h.symm⟩
  | cons hd rest ih =>
    obtain ⟨k, v⟩ := hd
    intro svs r h
    match v with
    | .leaf s =>
      simp [go] at h
      exact ih _ _ h
    | .node [] =>
      simp [go] at h
      exact ih _ _ h
    | .node (v1 :: vs) =>
      simp [go] at h
      rcases hin : go ((lookup svs k).getD (.node [])) (v1 :: vs) with _ | w
      · rw [hin] at h
        simp at h
      · rw [hin] at h
        simp at h
        exact ih _ _ h

theorem go_lookup_notmem : ∀ (os : List (String × Tree)) (svs rs : List (String × Tree))
    (k : String), go (.node svs) os = some (.node rs) → k ∉ keys os →
    lookup rs k = lookup svs k := by
  intro os
  induction os with
  | nil =>
    intro svs rs k h _
    simp [go] at h
    rw [h]
  | cons hd rest ih =>
    obtain ⟨k0, v⟩ := hd
    intro svs rs k h hk
    simp [keys] at hk
    push_neg at hk
    obtain ⟨hk0, hkr⟩ := hk
    have hkr' : k ∉ keys rest := by
      simp [keys]
      exact hkr
    have hne : k0 ≠ k := fun he => hk0 he.symm
    match v with
    | .leaf s =>
      simp [go] at h
      rw [ih _ _ _ h hkr', lookup_setKey_ne _ _ hne]
    | .node [] =>
      simp [go] at h
      rw [ih _ _ _ h hkr', lookup_setKey_ne _ _ hne]
    | .node (v1 :: vs) =>
      simp [go] at h
      rcases hin : go ((lookup svs k0).getD (.node [])) (v1 :: vs) with _ | w
      · rw [hin] at h
        simp at h
      · rw [hin] at h
        simp at h
        rw [ih _ _ _ h hkr', lookup_setKey_ne _ _ hne]

theorem go_keys_sup : ∀ (os : List (String × Tree)) (svs rs : List (String × Tree))
    (k : String), go (.node svs) os = some (.node rs) → k ∈ keys svs → k ∈ keys rs := by
  intro os
  induction os with
  | nil =>
    intro svs rs k h hk
    simp [go] at h
    rw [← h]
    exact hk
  | cons hd rest ih =>
    obtain ⟨k0, v⟩ := hd
    intro svs rs k h hk
    match v with
    | .leaf s =>
      simp [go] at h
      exact ih _ _ _ h ((mem_keys_setKey _ _ _ _).mpr (Or.inr hk))
    | .node [] =>
      simp [go] at h
      exact ih _ _ _ h ((mem_keys_setKey _ _ _ _).mpr (Or.inr hk))
    | .node (v1 :: vs) =>
      simp [go] at h
      rcases hin : go ((lookup svs k0).getD (.node [])) (v1 :: vs) with _ | w
      · rw [hin] at h
        simp at h
      · rw [hin] at h
        simp at h
        exact ih _ _ _ h ((mem_keys_setKey _ _ _ _).mpr (Or.inr hk))

theorem go_lookup_mem : ∀ (os : List (String × Tree)) (svs rs : List (String × Tree))
    (k : String) (v : Tree), nodupKeys os = true →
    go (.node svs) os = some (.node rs) → lookup os k = some v →
    (∀ v1 vs, v = .node (v1 :: vs) →
      ∃ w, go ((lookup svs k).getD (.node [])) (v1 :: vs) = some w ∧ lookup rs k = some w)
    ∧ ((∀ v1 vs, v ≠ .node (v1 :: vs)) → lookup rs k = some v) := by
  intro os
  induction os with
  | nil =>
    intro svs rs k v _ _ hl
    simp [lookup] at hl
  | cons hd rest ih =>
    obtain ⟨k0, v0⟩ := hd
    intro svs rs k v hnd h hl
    obtain ⟨hni, hnd'⟩ := nodupKeys_cons hnd
    by_cases hk : k0 = k
    · subst hk
      simp [lookup] at hl
      subst hl
      match v0 with
      | .leaf s =>
        simp [go] at h
        have hrk : lookup rs k0 = lookup (setKey svs k0 (.leaf s)) k0 :=
          go_lookup_notmem _ _ _ _ h hni
        rw [lookup_setKey_self] at hrk
        constructor
        · intro v1 vs hv
          cases hv
        · intro _
          exact hrk
      | .node [] =>
        simp [go] at h
        have hrk : lookup rs k0 = lookup (setKey svs k0 (.node [])) k0 :=
          go_lookup_notmem _ _ _ _ h hni
        rw [lookup_setKey_self] at hrk
        constructor
        · intro v1 vs hv
          simp at hv
        · intro _
          exact hrk
      | .node (v1 :: vs) =>
        simp [go] at h
        rcases hin : go ((lookup svs k0).getD (.node [])) (v1 :: vs) with _ | w
        · rw [hin] at h
          simp at h
        · rw [hin] at h
          simp at h
          have hrk : lookup rs k0 = lookup (setKey svs k0 w) k0 :=
            go_lookup_notmem _ _ _ _ h hni
          rw [lookup_setKey_self] at hrk
          constructor
          · intro u1 us hv
            rw [Tree.node.injEq] at hv
            rw [← hv]
            exact ⟨w, hin, hrk⟩
          · intro hne
            exact absurd rfl (hne v1 vs)
    · simp [lookup, hk] at hl
      have hne : k0 ≠ k := hk
      match v0 with
      | .leaf s =>
        simp [go] at h
        have := ih _ _ k v hnd' h hl
        rw [lookup_setKey_ne _ _ hne] at this
        exact this
      | .node [] =>
        simp [go] at h
        have := ih _ _ k v hnd' h hl
        rw [lookup_setKey_ne _ _ hne] at this
        exact this
      | .node (v1 :: vs) =>
        simp [go] at h
        rcases hin : go ((lookup svs k0).getD (.node [])) (v1 :: vs) with _ | w
        · rw [hin] at h
          simp at h
        · rw [hin] at h
          simp at h
          have := ih _ _ k v hnd' h hl
          rw [lookup_setKey_ne _ _ hne] at this
          exact this

theorem go_fail_leaf : ∀ (os : List (String × Tree)) (svs : List (String × Tree))
    (k : String) (s : String) (v1 : String × Tree) (vs : List (String × Tree)),
    nodupKeys os = true → lookup svs k = some (.leaf s) →
    lookup os k = some (.node (v1 :: vs)) → go (.node svs) os = none := by
  intro os
  induction os with
  | nil =>
    intro svs k s v1 vs _ _ hl
    simp [lookup] at hl
  | cons hd rest ih =>
    obtain ⟨k0, v0⟩ := hd
    intro svs k s v1 vs hnd hsv hl
    obtain ⟨hni, hnd'⟩ := nodupKeys_cons hnd
    by_cases hk : k0 = k
    · subst hk
      simp [lookup] at hl
      subst hl
      simp [go, hsv]
    · simp [lookup, hk] at hl
      have hne : k0 ≠ k := hk
      have hsv' : ∀ w : Tree, lookup (setKey svs k0 w) k = some (.leaf s) := by
        intro w
        rw [lookup_setKey_ne _ _ hne]
        exact hsv
      match v0 with
      | .leaf s0 =>
        simp [go]
        exact ih _ k s v1 vs hnd' (hsv' _) hl
      | .node [] =>
        simp [go]
        exact ih _ k s v1 vs hnd' (hsv' _) hl
      | .node (u1 :: us) =>
        simp [go]
        rcases hin : go ((lookup svs k0).getD (.node [])) (u1 :: us) with _ | w
        · simp
        · simp
          exact ih _ k s v1 vs hnd' (hsv' _) hl

theorem goR_lookup_notmem : ∀ (os : List (String × Tree)) (svs rs : List (String × Tree))
    (k : String), goR (.node svs) os = some (.node rs) → k ∉ keys os →
    lookup rs k = lookup svs k := by
  intro os
  induction os with
  | nil =>
    intro svs rs k h _
    simp [goR] at h
    rw [h]
  | cons hd rest ih =>
    obtain ⟨k0, v⟩ := hd
    intro svs rs k h hk
    simp [keys] at hk
    push_neg at hk
    obtain ⟨hk0, hkr⟩ := hk
    have hkr' : k ∉ keys rest := by
      simp [keys]
      exact hkr
    have hne : k0 ≠ k := fun he => hk0 he.symm
    match v with
    | .leaf s =>
      simp [goR] at h
      rw [ih _ _ _ h hkr', lookup_setKey_ne _ _ hne]
    | .node vs =>
      simp [goR] at h
      rcases hin : goR ((lookup svs k0).getD (.node [])) vs with _ | w
      · rw [hin] at h
        simp at h
      · rw [hin] at h
        simp at h
        rw [ih _ _ _ h hkr', lookup_setKey_ne _ _ hne]

theorem goR_lookup_mem_node : ∀ (os : List (String × Tree)) (svs rs : List (String × Tree))
    (k : String) (vs : List (String × Tree)), nodupKeys os = true →
    goR (.node svs) os = some (.node rs) → lookup os k = some (.node vs) →
    ∃ w, goR ((lookup svs k).getD (.node [])) vs = some w ∧ lookup rs k = some w := by
  intro os
  induction os with
  | nil =>
    intro svs rs k vs _ _ hl
    simp [lookup] at hl
  | cons hd rest ih =>
    obtain ⟨k0, v0⟩ := hd
    intro svs rs k vs hnd h hl
    obtain ⟨hni, hnd'⟩ := nodupKeys_cons hnd
    by_cases hk : k0 = k
    · subst hk
      simp [lookup] at hl
      subst hl
      simp [goR] at h
      rcases hin : goR ((lookup svs k0).getD (.node [])) vs with _ | w
      · rw [hin] at h
        simp at h
      · rw [hin] at h
        simp at h
        have hrk : lookup rs k0 = lookup (setKey svs k0 w) k0 :=
          goR_lookup_notmem _ _ _ _ h hni
        rw [lookup_setKey_self] at hrk
        exact ⟨w, rfl, hrk⟩
    · simp [lookup, hk] at hl
      have hne : k0 ≠ k := hk
      match v0 with
      | .leaf s =>
        simp [goR] at h
        have := ih _ _ k vs hnd' h hl
        rw [lookup_setKey_ne _ _ hne] at this
        exact this
      | .node us =>
        simp [goR] at h
        rcases hin : goR ((lookup svs k0).getD (.node [])) us with _ | w
        · rw [hin] at h
          simp at h
        · rw [hin] at h
          simp at h
          have := ih _ _ k vs hnd' h hl
          rw [lookup_setKey_ne _ _ hne] at this
          exact this

theorem go_idem_aux : ∀ (n : Nat) (os : List (String × Tree)) (src r : Tree),
    sizeOf os ≤ n → nodupKeys os = true → wfChildren os = true →
    go src os = some r → go r os = some r := by
  intro n
  induction n with
  | zero =>
    intro os src r hsz _ _ h
    match os with
    | [] =>
      simp [go] at h
      subst h
      simp [go]
    | hd :: rest =>
      simp only [List.cons.sizeOf_spec] at hsz
      omega
  | succ m ih =>
    intro os src r hsz hnd hwf h
    match os with
    | [] =>
      simp [go] at h
      subst h
      simp [go]
    | (k0, v0) :: rest =>
      obtain ⟨hni, hnd'⟩ := nodupKeys_cons hnd
      obtain ⟨hwv, hwr⟩ := wfChildren_cons hwf
      match src with
      | .leaf s0 =>
        simp [go] at h
      | .node svs =>
        have hszr : sizeOf rest ≤ m := by
          simp only [List.cons.sizeOf_spec] at hsz
          omega
        match v0 with
        | .leaf s =>
          simp [go] at h
          obtain ⟨rs, rfl⟩ := go_node_result rest _ r h
          have hlook : lookup rs k0 = some (.leaf s) := by
            rw [go_lookup_notmem _ _ _ _ h hni, lookup_setKey_self]
          simp [go]
          rw [setKey_lookup_eq _ hlook]
          exact ih rest _ _ hszr hnd' hwr h
        | .node [] =>
          simp [go] at h
          obtain ⟨rs, rfl⟩ := go_node_result rest _ r h
          have hlook : lookup rs k0 = some (.node []) := by
            rw [go_lookup_notmem _ _ _ _ h hni, lookup_setKey_self]
          simp [go]
          rw [setKey_lookup_eq _ hlook]
          exact ih rest _ _ hszr hnd' hwr h
        | .node (v1 :: vs) =>
          obtain ⟨hndv, hwcv⟩ := wfT_node hwv
          have hszv : sizeOf (v1 :: vs) ≤ m := by
            simp only [List.cons.sizeOf_spec, Prod.mk.sizeOf_spec,
              Tree.node.sizeOf_spec] at hsz ⊢
            omega
          simp [go] at h
          rcases hin : go ((lookup svs k0).getD (.node [])) (v1 :: vs) with _ | w
          · rw [hin] at h
            simp at h
          · rw [hin] at h
            simp at h
            obtain ⟨rs, rfl⟩ := go_node_result rest _ r h
            have hlook : lookup rs k0 = some w := by
              rw [go_lookup_notmem _ _ _ _ h hni, lookup_setKey_self]
            have hinner : go w (v1 :: vs) = some w :=
              ih (v1 :: vs) _ _ hszv hndv hwcv hin
            simp [go, hlook, hinner]
            rw [setKey_lookup_eq _ hlook]
            exact ih rest _ _ hszr hnd' hwr h

/-- Idempotence of the merge written in terms of `go`, with the size bound
instantiated. -/
theorem go_idem (os : List (String × Tree)) (src r : Tree)
    (hnd : nodupKeys os = true) (hwf : wfChildren os = true)
    (h : go src os = some r) : go r os = some r :=
  go_idem_aux (sizeOf os) os src r (Nat.le_refl _) hnd hwf h

theorem compatL_congr : ∀ (os : List (String × Tree))
    (svs1 svs2 : List (String × Tree)),
    (∀ k, k ∈ keys os → lookup svs1 k = lookup svs2 k) →
    compatL svs1 os = compatL svs2 os := by
  intro os
  induction os with
  | nil => intro _ _ _; simp [compatL]
  | cons hd rest ih =>
    obtain ⟨k0, v0⟩ := hd
    intro svs1 svs2 hlk
    have hk0 : lookup svs1 k0 = lookup svs2 k0 := by
      apply hlk
      simp [keys]
    have hrest : ∀ k, k ∈ keys rest → lookup svs1 k = lookup svs2 k := by
      intro k hk
      apply hlk
      simp [keys] at hk ⊢
      exact Or.inr hk
    match v0 with
    | .leaf s => simp [compatL, ih _ _ hrest]
    | .node [] => simp [compatL, ih _ _ hrest]
    | .node (v1 :: vs) =>
      simp [compatL, ih _ _ hrest, hk0]

theorem go_compat_aux : ∀ (n : Nat) (os svs : List (String × Tree)),
    sizeOf os ≤ n → nodupKeys os = true → wfChildren os = true →
    compatL svs os = true → ∃ rs, go (.node svs) os = some (.node rs) := by
  intro n
  induction n with
  | zero =>
    intro os svs hsz _ _ _
    match os with
    | [] => exact ⟨svs, by simp [go]⟩
    | hd :: rest =>
      simp only [List.cons.sizeOf_spec] at hsz
      omega
  | succ m ih =>
    intro os svs hsz hnd hwf hcp
    match os with
    | [] => exact ⟨svs, by simp [go]⟩
    | (k0, v0) :: rest =>
      obtain ⟨hni, hnd'⟩ := nodupKeys_cons hnd
      obtain ⟨hwv, hwr⟩ := wfChildren_cons hwf
      have hszr : sizeOf rest ≤ m := by
        simp only [List.cons.sizeOf_spec] at hsz
        omega
      have hcongr : ∀ w, compatL (setKey svs k0 w) rest = compatL svs rest := by
        intro w
        apply compatL_congr
        intro k hk
        have hne : k0 ≠ k := by
          intro he
          subst he
          exact hni hk
        exact lookup_setKey_ne _ _ hne
      match v0 with
      | .leaf s =>
        simp [compatL] at hcp
        obtain ⟨rs, hrs⟩ := ih rest (setKey svs k0 (.leaf s)) hszr hnd' hwr
          (by rw [hcongr]; exact hcp)
        exact ⟨rs, by simp [go]; exact hrs⟩
      | .node [] =>
        simp [compatL] at hcp
        obtain ⟨rs, hrs⟩ := ih rest (setKey svs k0 (.node [])) hszr hnd' hwr
          (by rw [hcongr]; exact hcp)
        exact ⟨rs, by simp [go]; exact hrs⟩
      | .node (v1 :: vs) =>
        obtain ⟨hndv, hwcv⟩ := wfT_node hwv
        have hszv : sizeOf (v1 :: vs) ≤ m := by
          simp only [List.cons.sizeOf_spec, Prod.mk.sizeOf_spec,
            Tree.node.sizeOf_spec] at hsz ⊢
          omega
        simp only [compatL, Bool.and_eq_true] at hcp
        obtain ⟨hhd, htl⟩ := hcp
        have hinner : ∃ w, go ((lookup svs k0).getD (.node [])) (v1 :: vs)
            = some (.node w) := by
          rcases hlk : lookup svs k0 with _ | dv
          · rw [hlk] at hhd
            simp at hhd
            exact ih (v1 :: vs) [] hszv hndv hwcv hhd
          · match dv with
            | .leaf s =>
              rw [hlk] at hhd
              simp at hhd
            | .node ws =>
              rw [hlk] at hhd
              simp at hhd
              exact ih (v1 :: vs) ws hszv hndv hwcv hhd
        obtain ⟨w, hw⟩ := hinner
        obtain ⟨rs, hrs⟩ := ih rest (setKey svs k0 (.node w)) hszr hnd' hwr
          (by rw [hcongr]; exact htl)
        refine ⟨rs, ?_⟩
        simp [go, hw]
        exact hrs

theorem sizeOf_mem {l : List (String × Tree)} {k : String} {v : Tree}
    (h : (k, v) ∈ l) : sizeOf v < sizeOf l := by
  induction l with
  | nil => simp at h
  | cons hd t ih =>
    obtain ⟨k0, v0⟩ := hd
    rcases List.mem_cons.mp h with heq | hmem
    · rw [Prod.mk.injEq] at heq
      rw [heq.2]
      simp only [List.cons.sizeOf_spec, Prod.mk.sizeOf_spec]
      omega
    · have := ih hmem
      simp only [List.cons.sizeOf_spec] at this ⊢
      omega

theorem presL_all : ∀ (bs' os rs : List (String × Tree)),
    (∀ k bv, (k, bv) ∈ bs' → presEntry k bv os rs = true) →
    presL bs' os rs = true := by
  intro bs'
  induction bs' with
  | nil =>
    intro _ _ _
    simp [presL]
  | cons hd t ih =>
    obtain ⟨k, bv⟩ := hd
    intro os rs hall
    simp only [presL, Bool.and_eq_true]
    constructor
    · exact hall k bv (List.mem_cons_self _ _)
    · exact ih os rs (fun k' bv' h => hall k' bv' (List.mem_cons_of_mem _ h))

theorem presL_of_go_aux : ∀ (n : Nat) (os bs rs : List (String × Tree)),
    sizeOf os ≤ n →
    nodupKeys bs = true → wfChildren bs = true →
    nodupKeys os = true → wfChildren os = true →
    go (.node bs) os = some (.node rs) → presL bs os rs = true := by
  intro n
  induction n with
  | zero =>
    intro os bs rs hsz hndb _ _ _ h
    match os with
    | [] =>
      simp [go] at h
      subst h
      apply presL_all
      intro k bv hmem
      have hlkb : lookup bs k = some bv := lookup_of_mem_nodup hndb hmem
      simp [presEntry, hlkb, lookup]
    | hd :: rest =>
      simp only [List.cons.sizeOf_spec] at hsz
      omega
  | succ m ih =>
    intro os bs rs hsz hndb hwfb hndo hwfo h
    apply presL_all
    intro k bv hmem
    have hlkb : lookup bs k = some bv := lookup_of_mem_nodup hndb hmem
    rcases hlo : lookup os k with _ | ov
    · have hnm : k ∉ keys os := (lookup_none_iff os k).mp hlo
      have hrk : lookup rs k = lookup bs k := go_lookup_notmem os bs rs k h hnm
      rw [hlkb] at hrk
      simp [presEntry, hrk, hlo]
    · have hchar := go_lookup_mem os bs rs k ov hndo h hlo
      match ov with
      | .leaf s =>
        have hrk := hchar.2 (by intro v1 vs hv; cases hv)
        cases bv <;> simp [presEntry, hrk, hlo]
      | .node [] =>
        have hrk := hchar.2 (by intro v1 vs hv; simp at hv)
        cases bv <;> simp [presEntry, hrk, hlo]
      | .node (o1 :: ovs) =>
        obtain ⟨w, hw, hrk⟩ := hchar.1 o1 ovs rfl
        rw [hlkb] at hw
        simp at hw
        match bv with
        | .leaf s' =>
          simp [go] at hw
        | .node bvs =>
          obtain ⟨wvs, rfl⟩ := go_node_result (o1 :: ovs) _ w hw
          simp [presEntry, hrk, hlo]
          have hovmem : (k, Tree.node (o1 :: ovs)) ∈ os := lookup_mem os hlo
          have hszo : sizeOf (o1 :: ovs) ≤ m := by
            have h1 := sizeOf_mem hovmem
            simp only [Tree.node.sizeOf_spec] at h1
            omega
          obtain ⟨hndb', hwfb'⟩ := wfT_node (wfChildren_mem hwfb hmem)
          obtain ⟨hndo', hwfo'⟩ := wfT_node (wfChildren_mem hwfo hovmem)
          exact ih (o1 :: ovs) bvs wvs hszo hndb' hwfb' hndo' hwfo' hw

theorem deep_update_node (s : Tree) (os : List (String × Tree)) :
    deep_update s (.node os) = go s os := rfl

theorem deep_update_r_node (s : Tree) (us : List (String × Tree)) :
    deep_update_r s (.node us) = goR s us := rfl

theorem setAll_notmem : ∀ (items : List (String × Tree)) (d : List (String × Tree))
    (k : String), k ∉ keys items → lookup (setAll d items) k = lookup d k := by
  intro items
  induction items with
  | nil =>
    intro d k _
    simp [setAll]
  | cons hd rest ih =>
    obtain ⟨k0, v0⟩ := hd
    intro d k hk
    simp [keys] at hk
    push_neg at hk
    obtain ⟨hk0, hkr⟩ := hk
    have hkr' : k ∉ keys rest := by
      simp [keys]
      exact hkr
    have hne : k0 ≠ k := fun he => hk0 he.symm
    simp [setAll]
    rw [ih _ _ hkr', lookup_setKey_ne _ _ hne]

theorem setAll_lookup : ∀ (items : List (String × Tree)) (d : List (String × Tree))
    (k : String) (v : Tree), nodupKeys items = true → lookup items k = some v →
    lookup (setAll d items) k = some v := by
  intro items
  induction items with
  | nil =>
    intro d k v _ hl
    simp [lookup] at hl
  | cons hd rest ih =>
    obtain ⟨k0, v0⟩ := hd
    intro d k v hnd hl
    obtain ⟨hni, hnd'⟩ := nodupKeys_cons hnd
    by_cases hk : k0 = k
    · subst hk
      simp [lookup] at hl
      subst hl
      simp [setAll]
      rw [setAll_notmem _ _ _ hni, lookup_setKey_self]
    · simp [lookup, hk] at hl
      simp [setAll]
      exact ih _ _ _ hnd' hl

theorem umGo_notmem : ∀ (ns acc rs : List (String × Tree)) (k : String),
    umGo acc ns = some rs → k ∉ keys ns → lookup rs k = lookup acc k := by
  intro ns
  induction ns with
  | nil =>
    intro acc rs k h _
    simp [umGo] at h
    rw [h]
  | cons hd rest ih =>
    obtain ⟨k0, v0⟩ := hd
    intro acc rs k h hk
    simp [keys] at hk
    push_neg at hk
    obtain ⟨hk0, hkr⟩ := hk
    have hkr' : k ∉ keys rest := by
      simp [keys]
      exact hkr
    have hne : k0 ≠ k := fun he => hk0 he.symm
    rcases hlk : lookup acc k0 with _ | dv
    · simp [umGo, hlk] at h
      rw [ih _ _ _ h hkr', lookup_setKey_ne _ _ hne]
    · match v0 with
      | .leaf s =>
        simp [umGo, hlk] at h
        rw [ih _ _ _ h hkr', lookup_setKey_ne _ _ hne]
      | .node vs =>
        match dv with
        | .node subs =>
          simp [umGo, hlk] at h
          rw [ih _ _ _ h hkr', lookup_setKey_ne _ _ hne]
        | .leaf s =>
          match vs with
          | [] =>
            simp [umGo, hlk] at h
            rw [ih _ _ _ h hkr']
          | u :: us =>
            simp [umGo, hlk] at h

theorem umGo_mem_nodes : ∀ (ns ds rs : List (String × Tree)) (k : String)
    (dsub nvs : List (String × Tree)), nodupKeys ns = true →
    umGo ds ns = some rs → lookup ds k = some (.node dsub) →
    lookup ns k = some (.node nvs) →
    lookup rs k = some (.node (setAll dsub nvs)) := by
  intro ns
  induction ns with
  | nil =>
    intro ds rs k dsub nvs _ _ _ hl
    simp [lookup] at hl
  | cons hd rest ih =>
    obtain ⟨k0, v0⟩ := hd
    intro ds rs k dsub nvs hnd h hld hl
    obtain ⟨hni, hnd'⟩ := nodupKeys_cons hnd
    by_cases hk : k0 = k
    · subst hk
      simp [lookup] at hl
      subst hl
      simp [umGo, hld] at h
      rw [umGo_notmem _ _ _ _ h hni, lookup_setKey_self]
    · simp [lookup, hk] at hl
      have hne : k0 ≠ k := hk
      rcases hlk : lookup ds k0 with _ | dv
      · simp [umGo, hlk] at h
        exact ih _ _ _ _ _ hnd' h (by rw [lookup_setKey_ne _ _ hne]; exact hld) hl
      · match v0 with
        | .leaf s =>
          simp [umGo, hlk] at h
          exact ih _ _ _ _ _ hnd' h (by rw [lookup_setKey_ne _ _ hne]; exact hld) hl
        | .node vs =>
          match dv with
          | .node subs =>
            simp [umGo, hlk] at h
            exact ih _ _ _ _ _ hnd' h (by rw [lookup_setKey_ne _ _ hne]; exact hld) hl
          | .leaf s =>
            match vs with
            | [] =>
              simp [umGo, hlk] at h
              exact ih _ _ _ _ _ hnd' h hld hl
            | u :: us =>
              simp [umGo, hlk] at h

theorem mem_keys_lookup {l : List (String × Tree)} {k : String}
    (h : k ∈ keys l) : ∃ v, lookup l k = some v := by
  rcases hl : lookup l k with _ | v
  · exact absurd h ((lookup_none_iff l k).mp hl)
  · exact ⟨v, rfl⟩

/-- C8: merging with an empty overrides node is the identity: for every
tree `T`, `deep_update T (node []) = some T`.  The loop over the empty
overrides dict performs no iteration and the base is returned
unchanged. -/
theorem claim_C8_empty_overrides_noop (T : Tree) :
    deep_update T (.node []) = some T := by
  rw [deep_update_node]
  simp [go]

/-- C7: the merge of `fix_ka_translation.py` is idempotent in the
overrides: for every tree `T` and well-formed overrides `O` on which the
merge succeeds with result `R`, merging `O` into `R` again succeeds and
returns `R` unchanged. -/
theorem claim_C7_idempotent (T O R : Tree) (hwf : wfT O = true)
    (h : deep_update T O = some R) : deep_update R O = some R := by
  match O with
  | .leaf s => simp [deep_update] at h
  | .node os =>
    rw [deep_update_node] at h ⊢
    obtain ⟨hnd, hwc⟩ := wfT_node hwf
    exact go_idem os T R hnd hwc h

/-- Witness for C7 at concrete trees. -/
theorem claim_C7_witness :
    wfT (.node [("a", .node [("x", .leaf "2"), ("y", .leaf "3")])]) = true ∧
    deep_update (.node [("a", .node [("x", .leaf "1")])])
      (.node [("a", .node [("x", .leaf "2"), ("y", .leaf "3")])])
      = some (.node [("a", .node [("x", .leaf "2"), ("y", .leaf "3")])]) ∧
    deep_update (.node [("a", .node [("x", .leaf "2"), ("y", .leaf "3")])])
      (.node [("a", .node [("x", .leaf "2"), ("y", .leaf "3")])])
      = some (.node [("a", .node [("x", .leaf "2"), ("y", .leaf "3")])]) := by
  have hwf : wfT (.node [("a", .node [("x", .leaf "2"), ("y", .leaf "3")])]) = true := by
    simp [wfT, wfChildren, nodupKeys, keyNotIn]
  have hdu : deep_update (.node [("a", .node [("x", .leaf "1")])])
      (.node [("a", .node [("x", .leaf "2"), ("y", .leaf "3")])])
      = some (.node [("a", .node [("x", .leaf "2"), ("y", .leaf "3")])]) := by
    simp [deep_update, go, lookup, setKey]
  exact ⟨hwf, hdu, claim_C7_idempotent _ _ _ hwf hdu⟩

/-- C2 counterexample: two well-formed trees on which the merge of
`fix_ka_translation.py` raises.  The base maps the key to a text leaf and
the overrides map it to a non-empty internal node, so the recursive call
receives the string and `source[key] = v` raises `TypeError`, embedded
as `none`. -/
theorem claim_C2_counterexample :
    wfT (.node [("k", .leaf "hello")]) = true ∧
    wfT (.node [("k", .node [("a", .leaf "b")])]) = true ∧
    deep_update (.node [("k", .leaf "hello")])
      (.node [("k", .node [("a", .leaf "b")])]) = none := by
  refine ⟨by simp [wfT, wfChildren, nodupKeys, keyNotIn], by simp [wfT, wfChildren, nodupKeys, keyNotIn], ?_⟩
  simp [deep_update, go, lookup]

/-- C2 amended: the merge of `fix_ka_translation.py` completes without
raising on every pair of well-formed trees that is compatible, meaning no
key reached by the recursion maps to a leaf in the base while mapping to
a non-empty internal node in the overrides; in the leaf-versus-node case
excluded by compatibility the merge raises instead. -/
theorem claim_C2_amended_total_when_compatible (bs os : List (String × Tree))
    (hwf : wfT (.node os) = true) (hcp : compatL bs os = true) :
    ∃ rs, deep_update (.node bs) (.node os) = some (.node rs) := by
  rw [deep_update_node]
  obtain ⟨hnd, hwc⟩ := wfT_node hwf
  exact go_compat_aux (sizeOf os) os bs (Nat.le_refl _) hnd hwc hcp

/-- Witness for the amended C2 at concrete trees. -/
theorem claim_C2_witness :
    wfT (.node [("k", .leaf "new"), ("m", .node [("x", .leaf "2")])]) = true ∧
    compatL [("k", .leaf "old"), ("m", .node [("x", .leaf "1")])]
      [("k", .leaf "new"), ("m", .node [("x", .leaf "2")])] = true ∧
    ∃ rs, deep_update (.node [("k", .leaf "old"), ("m", .node [("x", .leaf "1")])])
      (.node [("k", .leaf "new"), ("m", .node [("x", .leaf "2")])])
      = some (.node rs) := by
  have hwf : wfT (.node [("k", .leaf "new"), ("m", .node [("x", .leaf "2")])]) = true := by
    simp [wfT, wfChildren, nodupKeys, keyNotIn]
  have hcp : compatL [("k", .leaf "old"), ("m", .node [("x", .leaf "1")])]
      [("k", .leaf "new"), ("m", .node [("x", .leaf "2")])] = true := by
    simp [compatL, lookup]
  exact ⟨hwf, hcp, claim_C2_amended_total_when_compatible _ _ hwf hcp⟩

/-- C4 counterexample: the key is present in both trees as internal
nodes, but because the overrides node is empty the merge overwrites the
base node with the empty node instead of storing the recursive merge of
the two nodes, which would have been the unchanged base node. -/
theorem claim_C4_counterexample :
    deep_update (.node [("a", .node [("x", .leaf "1")])]) (.node [("a", .node [])])
      = some (.node [("a", .node [])]) ∧
    deep_update (.node [("x", .leaf "1")]) (.node [])
      = some (.node [("x", .leaf "1")]) ∧
    (Tree.node [] : Tree) ≠ .node [("x", .leaf "1")] := by
  refine ⟨?_, ?_, by simp⟩
  · simp [deep_update, go, lookup, setKey]
  · simp [deep_update, go]

/-- C4 amended: after a successful merge every overrides key is present
in the result; at keys where the overrides value is a non-empty internal
node and the base also holds a value, the result is the recursive merge
of the base value with the overrides node; at every other overrides key,
including keys bound to an empty node or a leaf, the overrides value
itself is stored. -/
theorem claim_C4_amended (bs os rs : List (String × Tree))
    (hnd : nodupKeys os = true)
    (h : deep_update (.node bs) (.node os) = some (.node rs)) :
    (∀ k, k ∈ keys os → k ∈ keys rs)
    ∧ (∀ k bv v1 vs, lookup bs k = some bv →
        lookup os k = some (.node (v1 :: vs)) →
        ∃ w, deep_update bv (.node (v1 :: vs)) = some w ∧ lookup rs k = some w)
    ∧ (∀ k v, lookup os k = some v → (∀ v1 vs, v ≠ .node (v1 :: vs)) →
        lookup rs k = some v) := by
  rw [deep_update_node] at h
  refine ⟨?_, ?_, ?_⟩
  · intro k hk
    obtain ⟨v, hv⟩ := mem_keys_lookup hk
    have hchar := go_lookup_mem os bs rs k v hnd h hv
    match v with
    | .leaf s =>
      exact lookup_some_mem_keys _ (hchar.2 (by intro v1 vs hv'; cases hv'))
    | .node [] =>
      exact lookup_some_mem_keys _ (hchar.2 (by intro v1 vs hv'; simp at hv'))
    | .node (v1 :: vs) =>
      obtain ⟨w, _, hrk⟩ := hchar.1 v1 vs rfl
      exact lookup_some_mem_keys _ hrk
  · intro k bv v1 vs hlb hlo
    obtain ⟨w, hw, hrk⟩ := (go_lookup_mem os bs rs k _ hnd h hlo).1 v1 vs rfl
    rw [hlb] at hw
    simp at hw
    exact ⟨w, by rw [deep_update_node]; exact hw, hrk⟩
  · intro k v hlo hne
    exact (go_lookup_mem os bs rs k v hnd h hlo).2 hne

/-- Witness for the amended C4 at concrete trees. -/
theorem claim_C4_witness :
    lookup [("k", .leaf "new")] "k" = some (.leaf "new") := by
  have h1 : nodupKeys [("k", Tree.leaf "new")] = true := by
    simp [nodupKeys, keyNotIn]
  have h2 : deep_update (.node [("k", .leaf "old")]) (.node [("k", .leaf "new")])
      = some (.node [("k", .leaf "new")]) := by
    simp [deep_update, go, lookup, setKey]
  exact (claim_C4_amended _ _ _ h1 h2).2.2 "k" (.leaf "new")
    (by simp [lookup]) (by intro v1 vs; simp)

/-- C5 counterexample: when the base maps the key to a leaf and the
overrides map it to a non-empty internal node, the merge raises
(`source.get` is only a default for a missing key, not for a non-node
value), rather than treating the leaf as an empty internal node, which
would have produced a successful merge. -/
theorem claim_C5_counterexample :
    deep_update (.node [("a", .leaf "v")]) (.node [("a", .node [("x", .leaf "y")])])
      = none ∧
    deep_update (.node []) (.node [("x", .leaf "y")])
      = some (.node [("x", .leaf "y")]) := by
  constructor
  · simp [deep_update, go, lookup]
  · simp [deep_update, go, lookup, setKey]

/-- C5 amended: for every overrides key bound to a non-empty internal
node, a successful merge stores at that key the recursive merge of the
overrides node against the base value, where only a missing base value is
treated as an empty internal node; a base value that is a leaf makes the
merge raise instead. -/
theorem claim_C5_amended :
    (∀ bs os rs k v1 vs, nodupKeys os = true →
      deep_update (.node bs) (.node os) = some (.node rs) →
      lookup os k = some (.node (v1 :: vs)) →
      ∃ w, deep_update ((lookup bs k).getD (.node [])) (.node (v1 :: vs)) = some w ∧
        lookup rs k = some w)
    ∧ (∀ bs os k s v1 vs, nodupKeys os = true →
      lookup bs k = some (.leaf s) → lookup os k = some (.node (v1 :: vs)) →
      deep_update (.node bs) (.node os) = none) := by
  constructor
  · intro bs os rs k v1 vs hnd h hlo
    rw [deep_update_node] at h
    obtain ⟨w, hw, hrk⟩ := (go_lookup_mem os bs rs k _ hnd h hlo).1 v1 vs rfl
    exact ⟨w, by rw [deep_update_node]; exact hw, hrk⟩
  · intro bs os k s v1 vs hnd hlb hlo
    rw [deep_update_node]
    exact go_fail_leaf os bs k s v1 vs hnd hlb hlo

/-- Witness for the amended C5 at concrete trees: a missing base key is
merged against the empty node, and a leaf base value makes the merge
fail. -/
theorem claim_C5_witness :
    (∃ w, deep_update ((lookup ([] : List (String × Tree)) "m").getD (.node []))
        (.node [("x", .leaf "2")]) = some w ∧
      lookup [("m", .node [("x", .leaf "2")])] "m" = some w) ∧
    deep_update (.node [("m", .leaf "s")]) (.node [("m", .node [("x", .leaf "2")])])
      = none := by
  constructor
  · exact (claim_C5_amended).1 [] [("m", .node [("x", .leaf "2")])]
      [("m", .node [("x", .leaf "2")])] "m" ("x", .leaf "2") []
      (by simp [nodupKeys, keyNotIn])
      (by simp [deep_update, go, lookup, setKey])
      (by simp [lookup])
  · exact (claim_C5_amended).2 [("m", .leaf "s")] [("m", .node [("x", .leaf "2")])]
      "m" "s" ("x", .leaf "2") []
      (by simp [nodupKeys, keyNotIn])
      (by simp [lookup])
      (by simp [lookup])

/-- C6 counterexample: in `rehydrate_ka.py`'s `deep_update` an overrides
key bound to an empty internal node is not a plain overwrite: the code
recurses (its test is only `isinstance`, without non-emptiness), the
recursive call iterates over nothing and returns the existing base value,
so the previous content of the base at that key is kept, not
discarded. -/
theorem claim_C6_counterexample :
    deep_update_r (.node [("a", .node [("x", .leaf "1")])]) (.node [("a", .node [])])
      = some (.node [("a", .node [("x", .leaf "1")])]) ∧
    Tree.node [("x", .leaf "1")] ≠ .node [] := by
  constructor
  · simp [deep_update_r, goR, lookup, setKey]
  · simp

/-- C6 amended: the plain-overwrite treatment of an empty overrides node
holds for the `deep_update` of `fix_ka_translation.py`, whose dict test
requires non-emptiness; in the `deep_update` of `rehydrate_ka.py` an
empty overrides node instead merges nothing, leaving an existing base
value unchanged. -/
theorem claim_C6_amended :
    (∀ bs os rs k, nodupKeys os = true →
      deep_update (.node bs) (.node os) = some (.node rs) →
      lookup os k = some (.node []) → lookup rs k = some (.node []))
    ∧ (∀ bs os rs k bv, nodupKeys os = true →
      deep_update_r (.node bs) (.node os) = some (.node rs) →
      lookup os k = some (.node []) → lookup bs k = some bv →
      lookup rs k = some bv) := by
  constructor
  · intro bs os rs k hnd h hlo
    rw [deep_update_node] at h
    exact (go_lookup_mem os bs rs k _ hnd h hlo).2 (by intro v1 vs hv; simp at hv)
  · intro bs os rs k bv hnd h hlo hlb
    rw [deep_update_r_node] at h
    obtain ⟨w, hw, hrk⟩ := goR_lookup_mem_node os bs rs k [] hnd h hlo
    rw [hlb] at hw
    simp [goR] at hw
    rw [← hw] at hrk
    exact hrk

/-- Witness for the amended C6 at concrete trees. -/
theorem claim_C6_witness :
    lookup [("a", .node [])] "a" = some (.node []) ∧
    lookup [("b", .node [("y", .leaf "2")])] "b" = some (.node [("y", .leaf "2")]) := by
  constructor
  · exact (claim_C6_amended).1 [("a", .node [("x", .leaf "1")])] [("a", .node [])]
      [("a", .node [])] "a"
      (by simp [nodupKeys, keyNotIn])
      (by simp [deep_update, go, lookup, setKey])
      (by simp [lookup])
  · exact (claim_C6_amended).2 [("b", .node [("y", .leaf "2")])] [("b", .node [])]
      [("b", .node [("y", .leaf "2")])] "b" (.node [("y", .leaf "2")])
      (by simp [nodupKeys, keyNotIn])
      (by simp [deep_update_r, goR, lookup, setKey])
      (by simp [lookup])
      (by simp [lookup])

/-- C9: the merge of `fix_ka_translation.py` never deletes base keys at
the levels its recursion reaches: after a successful merge of well-formed
trees, every base key is present in the result, bound to its old value
when the overrides do not mention it, and recursively preserved at keys
where a base node met a non-empty overrides node. -/
theorem claim_C9_no_deletion (B O R : Tree) (hwb : wfT B = true)
    (hwo : wfT O = true) (h : deep_update B O = some R) :
    preservedB B O R = true := by
  match B, O with
  | _, .leaf s => simp [deep_update] at h
  | .leaf s, .node os =>
    match os with
    | [] =>
      rw [deep_update_node] at h
      simp [go] at h
      rw [← h]
      simp [preservedB]
    | hd :: rest =>
      rw [deep_update_node] at h
      simp [go] at h
  | .node bs, .node os =>
    rw [deep_update_node] at h
    obtain ⟨rs, rfl⟩ := go_node_result os bs R h
    obtain ⟨hndb, hwcb⟩ := wfT_node hwb
    obtain ⟨hndo, hwco⟩ := wfT_node hwo
    simp only [preservedB]
    exact presL_of_go_aux (sizeOf os) os bs rs (Nat.le_refl _) hndb hwcb hndo hwco h

/-- Witness for C9 at concrete trees: an untouched top-level key, an
untouched sibling inside a merged node, and an overridden nested key. -/
theorem claim_C9_witness :
    preservedB
      (.node [("keep", .leaf "x"), ("a", .node [("p", .leaf "1"), ("q", .leaf "2")])])
      (.node [("a", .node [("p", .leaf "9")])])
      (.node [("keep", .leaf "x"), ("a", .node [("p", .leaf "9"), ("q", .leaf "2")])])
      = true := by
  have hwb : wfT (.node [("keep", .leaf "x"),
      ("a", .node [("p", .leaf "1"), ("q", .leaf "2")])]) = true := by
    simp [wfT, wfChildren, nodupKeys, keyNotIn]
  have hwo : wfT (.node [("a", .node [("p", .leaf "9")])]) = true := by
    simp [wfT, wfChildren, nodupKeys, keyNotIn]
  exact claim_C9_no_deletion _ _ _ hwb hwo
    (by simp [deep_update, go, lookup, setKey])

/-- C10: the merge step of `update_json_file` in `update_translations.py`
recurses only one level deep: at a top-level key present in both trees
with node values, every second-level entry of the new data is assigned
directly into the base's node, so a second-level node is replaced
wholesale; the concrete conjuncts contrast this with the recursive
`deep_update`, which merges the second-level nodes instead. -/
theorem claim_C10_one_level (ds ns rs dsub nvs : List (String × Tree)) (k : String)
    (hnd : nodupKeys ns = true)
    (h : update_merge (.node ds) (.node ns) = some (.node rs))
    (hld : lookup ds k = some (.node dsub))
    (hln : lookup ns k = some (.node nvs)) :
    lookup rs k = some (.node (setAll dsub nvs))
    ∧ (∀ sk sv, nodupKeys nvs = true → lookup nvs sk = some sv →
        lookup (setAll dsub nvs) sk = some sv)
    ∧ update_merge (.node [("a", .node [("b", .node [("c", .leaf "1")])])])
        (.node [("a", .node [("b", .node [("d", .leaf "2")])])])
        = some (.node [("a", .node [("b", .node [("d", .leaf "2")])])])
    ∧ deep_update (.node [("a", .node [("b", .node [("c", .leaf "1")])])])
        (.node [("a", .node [("b", .node [("d", .leaf "2")])])])
        = some (.node [("a", .node [("b", .node [("c", .leaf "1"), ("d", .leaf "2")])])]) := by
  have hum : umGo ds ns = some rs := by
    rcases hu : umGo ds ns with _ | rs'
    · rw [update_merge] at h
      rw [hu] at h
      simp at h
    · rw [update_merge] at h
      rw [hu] at h
      simp at h
      rw [h]
  refine ⟨umGo_mem_nodes ns ds rs k dsub nvs hnd hum hld hln, ?_, ?_, ?_⟩
  · intro sk sv hndv hlv
    exact setAll_lookup nvs dsub sk sv hndv hlv
  · simp [update_merge, umGo, setAll, lookup, setKey]
  · simp [deep_update, go, lookup, setKey]

/-- Witness for C10 at concrete trees: the nested node of the base is
replaced wholesale by the nested node of the new data. -/
theorem claim_C10_witness :
    lookup [("t", .node [("s", .leaf "new"), ("u", .leaf "keep")])] "t"
      = some (.node (setAll [("s", .leaf "old"), ("u", .leaf "keep")]
          [("s", .leaf "new")])) ∧
    lookup (setAll [("s", .leaf "old"), ("u", .leaf "keep")] [("s", .leaf "new")]) "s"
      = some (.leaf "new") := by
  have hc := claim_C10_one_level
    [("t", .node [("s", .leaf "old"), ("u", .leaf "keep")])]
    [("t", .node [("s", .leaf "new")])]
    [("t", .node [("s", .leaf "new"), ("u", .leaf "keep")])]
    [("s", .leaf "old"), ("u", .leaf "keep")]
    [("s", .leaf "new")] "t"
    (by simp [nodupKeys, keyNotIn])
    (by simp [update_merge, umGo, setAll, lookup, setKey])
    (by simp [lookup])
    (by simp [lookup])
  exact ⟨hc.1, hc.2.1 "s" (.leaf "new") (by simp [nodupKeys, keyNotIn]) (by simp [lookup])⟩

/-- C3: the lenient loader is total: its result is always either a tree
obtained by one of the two parse attempts or the caller-supplied
fallback; and when the strict parse of the raw text, the parse of the
brace-balanced text, and the parse of the comma-stripped text all fail,
it returns exactly the fallback tree. -/
theorem claim_C3_total_and_fallback (raw : String) (fb : Tree) :
    (load_lenient raw fb = fb ∨
      ∃ t, (jsonParseL (balancedText raw) = some t ∨
            jsonParseL (strippedText raw) = some t) ∧ load_lenient raw fb = t)
    ∧ (jsonParse raw = none → jsonParseL (balancedText raw) = none →
       jsonParseL (strippedText raw) = none → load_lenient raw fb = fb) := by
  constructor
  · rcases h1 : jsonParseL (balancedText raw) with _ | t1
    · rcases h2 : jsonParseL (strippedText raw) with _ | t2
      · left
        simp [load_lenient, h1, h2]
      · right
        exact ⟨t2, Or.inr rfl, by simp [load_lenient, h1, h2]⟩
    · right
      exact ⟨t1, Or.inl rfl, by simp [load_lenient, h1]⟩
  · intro _ h2 h3
    simp [load_lenient, h2, h3]

/-- Witness for C3 at a concrete unrecoverable input: the loader returns
the fallback exactly. -/
theorem claim_C3_witness :
    load_lenient "not json at all \x7b\x7b\x7b" (.leaf "FALLBACK") = .leaf "FALLBACK" :=
  (claim_C3_total_and_fallback "not json at all \x7b\x7b\x7b" (.leaf "FALLBACK")).2
    (by decide) (by decide) (by decide)

/-- C1 counterexample: a well-formed serialization whose brace characters
are unbalanced because one brace lies inside a string literal.  The
loader balances braces before any parse attempt, corrupting the text; the
corrupted text fails both parse attempts and the loader returns the
fallback instead of the strict parse of the input, so the result depends
on the fallback and no strict-parse-first state exists. -/
theorem claim_C1_counterexample :
    jsonParse "\x7b\"a\": \"\x7b\"\x7d" = some (.node [("a", .leaf "\x7b")]) ∧
    load_lenient "\x7b\"a\": \"\x7b\"\x7d" (.leaf "FALLBACK") = .leaf "FALLBACK" ∧
    Tree.leaf "FALLBACK" ≠ .node [("a", .leaf "\x7b")] := by
  refine ⟨by decide, by decide, by simp⟩

/-- C1 amended: the loader balances braces before its first parse
attempt, so the round-trip holds for well-formed input whose count of
open-brace characters equals its count of close-brace characters: on such
input the balancing step is the identity, the first parse attempt
succeeds, and the loader returns the strict parse regardless of the
fallback. -/
theorem claim_C1_amended (S : String) (fb t : Tree)
    (hp : jsonParse S = some t)
    (hb : S.toList.count obrace = S.toList.count cbrace) :
    load_lenient S fb = t := by
  have hbal : balancedText S = S.toList := by
    unfold balancedText braceBalance
    rw [hb]
    simp
  have hps : jsonParseL (balancedText S) = some t := by
    rw [hbal]
    exact hp
  simp [load_lenient, hps]

/-- Witness for the amended C1 at a concrete well-formed input. -/
theorem claim_C1_witness :
    jsonParse "\x7b\"a\": \"b\"\x7d" = some (.node [("a", .leaf "b")]) ∧
    load_lenient "\x7b\"a\": \"b\"\x7d" (.leaf "zz") = .node [("a", .leaf "b")] := by
  have h1 : jsonParse "\x7b\"a\": \"b\"\x7d" = some (.node [("a", .leaf "b")]) := by
    decide
  have h2 : ("\x7b\"a\": \"b\"\x7d" : String).toList.count obrace
      = ("\x7b\"a\": \"b\"\x7d" : String).toList.count cbrace := by
    decide
  exact ⟨h1, claim_C1_amended _ _ _ h1 h2⟩

end LocaleMerge
